import Mathlib

/-!
# Verification of the `memo` concurrent non-blocking cache

This file is a shallow embedding of the `memo` package
(`src/8_channels/reverb/reverb.go`, package `memo`): a memoization cache
coordinated by a monitor goroutine (`server`) that owns a local
`cache : map[string]*entry`, receives `request` messages on the Memo's
`requests` channel, and spawns `entry.call` / `entry.deliver` goroutines.

The concurrent execution is embedded as a labelled transition system:
* `State` holds the channel contents of `m.requests` (`queue`), whether the
  channel has been closed (`closed`), the server's local `cache` map
  (association list from key to entry index), the `entries` store, and the
  spawned `call` / `deliver` goroutines with their program counters.
* `step` is one atomic action of one goroutine: a `Get` sending its request,
  the server consuming one request (lines 138-147 of the source), a `call`
  goroutine writing the result (line 169) or closing `ready` (line 171), a
  `deliver` goroutine forwarding the result after `ready` (lines 180-182),
  or `Close` closing the channel (line 128).
* Ghost history fields (`sent`, `fKeys`, `spawned`) record which responses
  have been delivered, the keys `f` has been applied to, and the keys for
  which a `call` goroutine was spawned; they let us state at-most-once and
  delivery properties without changing the dynamics.

Go channel runtime semantics needed by the `Close` claims (send on a closed
channel panics; closing a closed channel panics) are embedded by `chanSend`
and `chanClose` below.
-/

namespace GoplMemo

/-- A Go `error` value: `nil` or an error with a message. -/
abbrev Err := Option String

/-- `result` of a memoized function call (source lines 89-92):
`value interface{}` and `err error`.  The dynamic `interface{}` payload is
embedded as a type parameter `V`. -/
structure result (V : Type) where
  value : V
  err : Err
deriving DecidableEq, Repr

/-- `Func` (source line 86): the type of the function to memoize,
`func(key string) (interface{}, error)`. -/
abbrev Func (V : Type) := String → result V

/-- A `request` (source lines 95-98): a message asking that `Func` be
applied to `key`, carrying the caller's private response channel
(identified here by a numeric channel id). -/
structure request where
  key : String
  response : Nat
deriving DecidableEq, Repr

/-- Program counter of an `entry.call` goroutine (source lines 167-172):
`start` = about to evaluate `f(key)` (line 169 not yet executed),
`wroteRes` = `e.res` has been assigned, `close(e.ready)` (line 171) not yet
executed, `done` = `ready` has been closed and the goroutine has returned. -/
inductive CallPhase where
  | start
  | wroteRes
  | done
deriving DecidableEq, Repr

/-- An `entry` (source lines 155-158): the memoized `res` (absent until the
`call` goroutine assigns it) and the `ready` channel, represented by whether
it has been closed. -/
structure entry (V : Type) where
  res : Option (result V)
  ready : Bool
deriving DecidableEq, Repr

/-- A spawned `e.call(f, req.key)` goroutine (source line 144): the index of
its entry, the key it was spawned for, and its program counter. -/
structure CallTask where
  eid : Nat
  key : String
  phase : CallPhase
deriving DecidableEq, Repr

/-- A spawned `e.deliver(req.response)` goroutine (source line 146): the
key of the request it serves (ghost, from the spawning context), the index
of its entry, the response channel id, and whether it has already sent. -/
structure DeliverTask where
  key : String
  eid : Nat
  response : Nat
  sentFlag : Bool
deriving DecidableEq, Repr

/-- The global state of one `Memo` instance and its goroutines.
`queue` is the content of `m.requests` that the server has not yet consumed,
`closed` whether `Close` has closed that channel.  `cache` is the server's
local map (line 137), as an association list from key to index into
`entries`.  `sent`, `fKeys`, `spawned` are ghost histories. -/
structure State (V : Type) where
  queue : List request
  closed : Bool
  cache : List (String × Nat)
  entries : List (entry V)
  calls : List CallTask
  delivers : List DeliverTask
  sent : List (String × Nat × result V)
  fKeys : List String
  spawned : List String
deriving DecidableEq, Repr

/-- The state of a freshly constructed `Memo` (`New`, source lines 108-112):
empty channel, open, empty cache, no goroutines besides the server. -/
def initState (V : Type) : State V :=
  ⟨[], false, [], [], [], [], [], [], []⟩

/-- Lookup in the server's cache map: `cache[req.key]` (source line 139).
`none` plays the role of the `nil` entry pointer. -/
def cacheLookup (c : List (String × Nat)) (k : String) : Option Nat :=
  match c with
  | [] => none
  | (k', i) :: t => if k' = k then some i else cacheLookup t k

/-- One atomic action of one goroutine. -/
inductive Label where
  | enqueue (r : request)
  | srv
  | doClose
  | callWrite (n : Nat)
  | callClose (n : Nat)
  | deliver (n : Nat)
deriving DecidableEq, Repr

/-- One step of the system; `none` when the action is not enabled in `s`
(a blocked or faulting goroutine makes no transition).

* `enqueue r`: a caller of `Get` sends its request on `m.requests`
  (line 121); sending on a closed channel is a Go run-time panic, so no
  transition exists once `closed` (the panic itself is `chanSend`).
* `srv`: the server consumes one request (lines 138-147): look up the key;
  if absent, create an entry with `ready` not yet closed, insert it, and
  spawn `e.call`; in either case spawn `e.deliver`.
* `doClose`: `Close` (line 128) closes the channel; closing a closed
  channel panics, so no transition exists once `closed` (see `chanClose`).
* `callWrite n`: the `n`-th `call` goroutine executes
  `e.res.value, e.res.err = f(key)` (line 169).
* `callClose n`: the `n`-th `call` goroutine executes `close(e.ready)`
  (line 171), only after having written the result.
* `deliver n`: the `n`-th `deliver` goroutine, enabled only once `ready`
  is closed (`<-e.ready`, line 180), sends `e.res` on its response channel
  (line 182). -/
def step {V : Type} (f : Func V) (s : State V) : Label → Option (State V)
  | .enqueue r =>
    if s.closed then none
    else some { s with queue := s.queue ++ [r] }
  | .srv =>
    match s.queue with
    | [] => none
    | req :: rest =>
      match cacheLookup s.cache req.key with
      | some i =>
        some { s with
          queue := rest,
          delivers := s.delivers ++ [⟨req.key, i, req.response, false⟩] }
      | none =>
        some { s with
          queue := rest,
          cache := (req.key, s.entries.length) :: s.cache,
          entries := s.entries ++ [⟨none, false⟩],
          calls := ⟨s.entries.length, req.key, .start⟩ :: s.calls,
          spawned := s.spawned ++ [req.key],
          delivers := s.delivers ++
            [⟨req.key, s.entries.length, req.response, false⟩] }
  | .doClose =>
    if s.closed then none
    else some { s with closed := true }
  | .callWrite n =>
    match s.calls[n]? with
    | none => none
    | some t =>
      match t.phase with
      | .start =>
        match s.entries[t.eid]? with
        | none => none
        | some e =>
          some { s with
            entries := s.entries.set t.eid { e with res := some (f t.key) },
            calls := s.calls.set n { t with phase := .wroteRes },
            fKeys := s.fKeys ++ [t.key] }
      | _ => none
  | .callClose n =>
    match s.calls[n]? with
    | none => none
    | some t =>
      match t.phase with
      | .wroteRes =>
        match s.entries[t.eid]? with
        | none => none
        | some e =>
          some { s with
            entries := s.entries.set t.eid { e with ready := true },
            calls := s.calls.set n { t with phase := .done } }
      | _ => none
  | .deliver n =>
    match s.delivers[n]? with
    | none => none
    | some d =>
      if d.sentFlag then none
      else
        match s.entries[d.eid]? with
        | none => none
        | some e =>
          if e.ready then
            match e.res with
            | some r =>
              some { s with
                sent := s.sent ++ [(d.key, d.response, r)],
                delivers := s.delivers.set n { d with sentFlag := true } }
            | none => none
          else none

/-- Run a sequence of atomic actions from `s`; `none` as soon as one of
them is not enabled. -/
def run {V : Type} (f : Func V) : State V → List Label → Option (State V)
  | s, [] => some s
  | s, l :: ls =>
    match step f s l with
    | none => none
    | some s' => run f s' ls

/-- A state is reachable when some interleaving of goroutine actions
produces it from the state of a fresh `Memo`. -/
def Reaches {V : Type} (f : Func V) (s : State V) : Prop :=
  ∃ ls : List Label, run f (initState V) ls = some s

/-! ## Go channel runtime semantics

`Get` sends on `m.requests` (line 121) and `Close` closes it (line 128).
The Go runtime panics on a send on a closed channel and on closing a closed
channel; these two operations are embedded explicitly so the `Close`-related
claims can be settled against what the code actually does. -/

/-- A Go run-time panic raised by a channel operation. -/
inductive GoPanic where
  | sendOnClosedChannel
  | closeOfClosedChannel
deriving DecidableEq, Repr

/-- Go semantics of a channel send given whether the channel is closed:
a send on a closed channel panics. -/
def chanSend (closed : Bool) : Except GoPanic Unit :=
  if closed then .error .sendOnClosedChannel else .ok ()

/-- Go semantics of `close` given whether the channel is already closed:
closing a closed channel panics; otherwise the channel becomes closed. -/
def chanClose (closed : Bool) : Except GoPanic Bool :=
  if closed then .error .closeOfClosedChannel else .ok true

/-- The sending half of `Memo.Get` (line 121): send the request on
`m.requests`.  Returns the new channel content, or the panic that the Go
runtime raises when the channel has been closed by `Close`. -/
def memoGet (closed : Bool) (r : request) (q : List request) :
    Except GoPanic (List request) :=
  match chanSend closed with
  | .error p => .error p
  | .ok _ => .ok (q ++ [r])

/-- `Memo.Close` (line 128): `close(m.requests)`.  Returns the new closed
flag, or the panic the Go runtime raises when the channel is already
closed. -/
def memoClose (closed : Bool) : Except GoPanic Bool :=
  chanClose closed

/-- Running `Close` twice in sequence, threading the channel state: the
first close succeeds and the second operates on an already-closed
channel. -/
def memoCloseTwice : Except GoPanic Bool :=
  match memoClose false with
  | .error p => .error p
  | .ok c => memoClose c

/-! ## Concrete schedules for evaluating the model -/

/-- The schedule of one complete `Get k` on a fresh `Memo`: the caller
sends its request, the server consumes it, the `call` goroutine computes
and publishes, the `deliver` goroutine responds. -/
def oneGetScript (k : String) : List Label :=
  [.enqueue ⟨k, 0⟩, .srv, .callWrite 0, .callClose 0, .deliver 0]

/-- The result delivered by one complete `Get k` on a fresh, private `Memo`
instance built by `New f`. -/
def getOnce {V : Type} (f : Func V) (k : String) : Option (result V) :=
  match run f (initState V) (oneGetScript k) with
  | some s => (s.sent.map fun x => x.2.2).head?
  | none => none

/-- A concrete memoized function. -/
def fWit : Func Nat := fun _ => ⟨7, none⟩

/-- A concrete memoized function that always fails. -/
def fErr : Func Nat := fun _ => ⟨0, some "boom"⟩

/-- Two concurrent `Get "a"` calls on one `Memo`, fully processed: both
requests are sent before the server consumes either, so the second arrives
while (in fact before) the computation for `"a"` is in flight. -/
def lsTwoGets : List Label :=
  [.enqueue ⟨"a", 0⟩, .enqueue ⟨"a", 1⟩, .srv, .srv,
   .callWrite 0, .callClose 0, .deliver 0, .deliver 1]

/-- The state after `lsTwoGets` with computation function `fWit`. -/
def sTwoGets : State Nat :=
  (run fWit (initState Nat) lsTwoGets).getD (initState Nat)

/-- The state after `lsTwoGets` with the failing function `fErr`. -/
def sTwoGetsErr : State Nat :=
  (run fErr (initState Nat) lsTwoGets).getD (initState Nat)

/-- A state in which one request has been sent and then the `Memo` was
closed: the requests channel is closed but one request is still queued. -/
def sClosedPending : State Nat :=
  (run fWit (initState Nat) [.enqueue ⟨"a", 0⟩, .doClose]).getD
    (initState Nat)

/-- A state in which one request for `"a"` has been served by the
coordinator but its `call` and `deliver` goroutines have not yet run. -/
def sMidFlight : State Nat :=
  (run fWit (initState Nat) [.enqueue ⟨"a", 0⟩, .srv]).getD (initState Nat)

/-- The state reached from `sMidFlight` after the `call` and `deliver`
goroutines have run to completion. -/
def sDoneFlight : State Nat :=
  (run fWit sMidFlight [.callWrite 0, .callClose 0, .deliver 0]).getD
    (initState Nat)

/-- A state with one request still queued (the server has not consumed
it yet). -/
def sQueued : State Nat :=
  (run fWit (initState Nat) [.enqueue ⟨"a", 0⟩]).getD (initState Nat)

/-- A state of a closed `Memo` whose queue has been fully drained. -/
def sClosedDrained : State Nat :=
  (run fWit (initState Nat) [.doClose]).getD (initState Nat)

/-- A computation function returning 1 for every key. -/
def fOne : Func Nat := fun _ => ⟨1, none⟩

/-- A computation function returning 2 for every key. -/
def fTwo : Func Nat := fun _ => ⟨2, none⟩

/-! ## Generic list helpers -/

theorem set_eq_self_of_getElem? {α : Type _} {l : List α} {n : Nat} {a : α}
    (h : l[n]? = some a) : l.set n a = l := by
  apply List.ext_getElem?
  intro i
  by_cases hi : i = n
  · subst hi
    rw [List.getElem?_set_self]
    · exact h.symm
    · rw [List.getElem?_eq_some] at h
      exact h.1
  · rw [List.getElem?_set_ne (fun hh => hi hh.symm)]

theorem self_mem_set {α : Type _} {l : List α} {n : Nat} {a b : α}
    (h : l[n]? = some a) : b ∈ l.set n b := by
  have hlt : n < l.length := by
    rw [List.getElem?_eq_some] at h
    exact h.1
  exact List.getElem?_mem (List.getElem?_set_self hlt)

theorem mem_set_of_mem_of_ne {α : Type _} {l : List α} {n : Nat} {a x b : α}
    (hx : x ∈ l) (hn : l[n]? = some a) (hne : x ≠ a) : x ∈ l.set n b := by
  induction l generalizing n with
  | nil => cases hx
  | cons c t ih =>
    cases n with
    | zero =>
      simp only [List.getElem?_cons_zero, Option.some.injEq] at hn
      subst hn
      rcases List.mem_cons.mp hx with h | h
      · exact absurd h hne
      · exact List.mem_cons_of_mem _ (by simpa using h)
    | succ m =>
      simp only [List.getElem?_cons_succ] at hn
      rcases List.mem_cons.mp hx with h | h
      · subst h
        exact List.mem_cons_self _ _
      · exact List.mem_cons_of_mem _ (ih h hn)

theorem mem_set_mapinj {α β : Type _} (g : α → β) {l : List α} {n : Nat}
    {t t' x : α} (hn : l[n]? = some t) (hinj : (l.map g).Nodup)
    (hx : x ∈ l.set n t') : x = t' ∨ (x ∈ l ∧ g x ≠ g t) := by
  induction l generalizing n with
  | nil => simp [List.set] at hx
  | cons a l ih =>
    rcases List.nodup_cons.mp ((List.map_cons g a l) ▸ hinj) with ⟨ha, hl⟩
    cases n with
    | zero =>
      simp only [List.getElem?_cons_zero, Option.some.injEq] at hn
      subst hn
      simp only [List.set_cons_zero] at hx
      rcases List.mem_cons.mp hx with h | h
      · exact Or.inl h
      · right
        refine ⟨List.mem_cons_of_mem _ h, fun hgx => ?_⟩
        exact ha (hgx ▸ List.mem_map_of_mem g h)
    | succ m =>
      simp only [List.getElem?_cons_succ] at hn
      simp only [List.set_cons_succ] at hx
      rcases List.mem_cons.mp hx with h | h
      · subst h
        right
        refine ⟨List.mem_cons_self _ _, fun hgx => ?_⟩
        have ht : t ∈ l := List.getElem?_mem hn
        exact ha (hgx.symm ▸ List.mem_map_of_mem g ht)
      · rcases ih hn hl h with h' | ⟨h1, h2⟩
        · exact Or.inl h'
        · exact Or.inr ⟨List.mem_cons_of_mem _ h1, h2⟩

/-! ## Facts about `cacheLookup` -/

theorem cacheLookup_eq_none {c : List (String × Nat)} {k : String} :
    cacheLookup c k = none ↔ k ∉ c.map Prod.fst := by
  induction c with
  | nil => simp [cacheLookup]
  | cons p t ih =>
    rcases p with ⟨k', i⟩
    simp only [cacheLookup, List.map_cons, List.mem_cons]
    by_cases h : k' = k
    · subst h
      simp
    · rw [if_neg h, ih]
      constructor
      · intro hn hmem
        rcases hmem with h1 | h1
        · exact h h1.symm
        · exact hn h1
      · intro hn h1
        exact hn (Or.inr h1)

theorem cacheLookup_mem {c : List (String × Nat)} {k : String} {i : Nat}
    (h : cacheLookup c k = some i) : (k, i) ∈ c := by
  induction c with
  | nil => simp [cacheLookup] at h
  | cons p t ih =>
    rcases p with ⟨k', j⟩
    by_cases hk : k' = k
    · subst hk
      simp [cacheLookup] at h
      simp [h]
    · simp [cacheLookup, hk] at h
      exact List.mem_cons_of_mem _ (ih h)

theorem mem_cacheLookup {c : List (String × Nat)} {k : String} {i : Nat}
    (h : (k, i) ∈ c) (hnd : (c.map Prod.fst).Nodup) :
    cacheLookup c k = some i := by
  induction c with
  | nil => cases h
  | cons p t ih =>
    rcases p with ⟨k', j⟩
    rcases List.nodup_cons.mp ((List.map_cons Prod.fst (k', j) t) ▸ hnd)
      with ⟨hk', ht⟩
    rcases List.mem_cons.mp h with h | h
    · rcases Prod.mk.injEq .. ▸ h with ⟨h1, h2⟩
      simp only [cacheLookup]
      simp [h1.symm, h2.symm]
    · have hmem : k ∈ t.map Prod.fst := List.mem_map_of_mem Prod.fst h
      have hne : k' ≠ k := fun hh => hk' (hh.symm ▸ hmem)
      simp only [cacheLookup, if_neg hne]
      exact ih h ht

/-! ## The system invariant -/

/-- Invariant of a `Memo` system state, preserved by every step.  It ties
the server's cache map, the entries, the spawned goroutines and the ghost
histories together:
* cache keys are distinct and cache indices are exactly the entry indices;
* the spawned `call` goroutines project (key, entry index)-wise onto the
  cache map: one `call` goroutine per cached key, for its entry;
* each `call` goroutine's program counter determines its entry: before the
  write `res` is unset and `ready` open; after the write `res` holds
  exactly `f key`; `ready` is closed only after `res` is set (`done`);
* each `deliver` goroutine serves the entry cached for its key;
* every response sent so far carries exactly `f` of the requested key;
* `f` has been applied at most once per key, and exactly to those keys
  whose `call` goroutine has passed the write;
* a `call` goroutine was spawned exactly once per cached key. -/
structure Inv {V : Type} (f : Func V) (s : State V) : Prop where
  keysNodup : (s.cache.map Prod.fst).Nodup
  idxEq : s.cache.map Prod.snd = (List.range s.entries.length).reverse
  callsProj : s.calls.map (fun t => (t.key, t.eid)) = s.cache
  taskEntry : ∀ t ∈ s.calls, ∃ e, s.entries[t.eid]? = some e ∧
      (t.phase = CallPhase.start → e.res = none ∧ e.ready = false) ∧
      (t.phase = CallPhase.wroteRes → e.res = some (f t.key) ∧ e.ready = false) ∧
      (t.phase = CallPhase.done → e.res = some (f t.key) ∧ e.ready = true)
  delLink : ∀ d ∈ s.delivers, cacheLookup s.cache d.key = some d.eid
  sentOk : ∀ x ∈ s.sent, x.2.2 = f x.1
  fKeysNodup : s.fKeys.Nodup
  fKeysIff : ∀ k, k ∈ s.fKeys ↔
      ∃ t, t ∈ s.calls ∧ t.key = k ∧ t.phase ≠ CallPhase.start
  spawnedEq : s.spawned.reverse = s.cache.map Prod.fst

theorem inv_init {V : Type} (f : Func V) : Inv f (initState V) := by
  constructor <;> simp [initState]

/-! ### Facts derived from the invariant -/

/-- Cache indices are distinct. -/
theorem Inv.idxNodup {V : Type} {f : Func V} {s : State V} (h : Inv f s) :
    (s.cache.map Prod.snd).Nodup := by
  rw [h.idxEq]
  exact List.nodup_reverse.mpr (List.nodup_range _)

/-- The entry indices of the `call` goroutines coincide with the cache
indices. -/
theorem Inv.eidsEq {V : Type} {f : Func V} {s : State V} (h : Inv f s) :
    s.calls.map CallTask.eid = s.cache.map Prod.snd := by
  rw [← h.callsProj, List.map_map]
  rfl

/-- No two `call` goroutines share an entry. -/
theorem Inv.eidsNodup {V : Type} {f : Func V} {s : State V} (h : Inv f s) :
    (s.calls.map CallTask.eid).Nodup := by
  rw [h.eidsEq]
  exact h.idxNodup

/-- Every `call` goroutine works on the entry cached for its key. -/
theorem Inv.taskLink {V : Type} {f : Func V} {s : State V} (h : Inv f s) :
    ∀ t ∈ s.calls, cacheLookup s.cache t.key = some t.eid := by
  intro t ht
  have : (t.key, t.eid) ∈ s.cache := by
    rw [← h.callsProj]
    exact List.mem_map_of_mem _ ht
  exact mem_cacheLookup this h.keysNodup

/-- Every cache index is in range of the entry store. -/
theorem Inv.idxLt {V : Type} {f : Func V} {s : State V} (h : Inv f s) :
    ∀ p ∈ s.cache, p.2 < s.entries.length := by
  intro p hp
  have : p.2 ∈ s.cache.map Prod.snd := List.mem_map_of_mem _ hp
  rw [h.idxEq, List.mem_reverse, List.mem_range] at this
  exact this

/-- At most one cached key per entry index. -/
theorem Inv.keyOfIdx {V : Type} {f : Func V} {s : State V} (h : Inv f s)
    {k k' : String} {i : Nat} (h1 : (k, i) ∈ s.cache)
    (h2 : (k', i) ∈ s.cache) : k = k' := by
  have := List.inj_on_of_nodup_map h.idxNodup h1 h2 rfl
  exact congrArg Prod.fst this

theorem nodup_append_singleton {α : Type _} {l : List α} {a : α}
    (h1 : l.Nodup) (h2 : a ∉ l) : (l ++ [a]).Nodup := by
  rw [List.nodup_append]
  refine ⟨h1, List.nodup_singleton a, ?_⟩
  intro x hx hxa
  rw [List.mem_singleton] at hxa
  subst hxa
  exact h2 hx

/-! ### Preservation of the invariant, one lemma per kind of action -/

theorem inv_enqueue {V : Type} {f : Func V} {s s' : State V} {r : request}
    (hI : Inv f s) (hs : step f s (.enqueue r) = some s') : Inv f s' := by
  simp only [step] at hs
  split at hs
  · cases hs
  · cases hs
    exact ⟨hI.keysNodup, hI.idxEq, hI.callsProj, hI.taskEntry, hI.delLink,
      hI.sentOk, hI.fKeysNodup, hI.fKeysIff, hI.spawnedEq⟩

theorem inv_doClose {V : Type} {f : Func V} {s s' : State V}
    (hI : Inv f s) (hs : step f s .doClose = some s') : Inv f s' := by
  simp only [step] at hs
  split at hs
  · cases hs
  · cases hs
    exact ⟨hI.keysNodup, hI.idxEq, hI.callsProj, hI.taskEntry, hI.delLink,
      hI.sentOk, hI.fKeysNodup, hI.fKeysIff, hI.spawnedEq⟩

theorem inv_srv {V : Type} {f : Func V} {s s' : State V}
    (hI : Inv f s) (hs : step f s .srv = some s') : Inv f s' := by
  simp only [step] at hs
  split at hs
  · cases hs
  · rename_i req rest hq
    split at hs
    · rename_i i hl
      cases hs
      refine ⟨hI.keysNodup, hI.idxEq, hI.callsProj, hI.taskEntry, ?_,
        hI.sentOk, hI.fKeysNodup, hI.fKeysIff, hI.spawnedEq⟩
      intro d hd
      rcases List.mem_append.mp hd with hd | hd
      · exact hI.delLink d hd
      · simp only [List.mem_singleton] at hd
        subst hd
        exact hl
    · rename_i hl
      cases hs
      have hnotmem : req.key ∉ s.cache.map Prod.fst := cacheLookup_eq_none.mp hl
      refine ⟨?_, ?_, ?_, ?_, ?_, hI.sentOk, hI.fKeysNodup, ?_, ?_⟩
      · rw [List.map_cons, List.nodup_cons]
        exact ⟨hnotmem, hI.keysNodup⟩
      · simp only [List.map_cons, List.length_append, List.length_cons,
          List.length_nil, List.range_succ, List.reverse_append,
          List.reverse_cons, List.reverse_nil, List.nil_append,
          List.cons_append, List.singleton_append]
        rw [hI.idxEq]
      · simp only [List.map_cons]
        rw [hI.callsProj]
      · intro t ht
        rcases List.mem_cons.mp ht with ht | ht
        · subst ht
          refine ⟨⟨none, false⟩, List.getElem?_concat_length _ _, ?_, ?_, ?_⟩
          · intro _
            exact ⟨rfl, rfl⟩
          · intro h
            cases h
          · intro h
            cases h
        · have hmem : (t.key, t.eid) ∈ s.cache := by
            rw [← hI.callsProj]
            exact List.mem_map_of_mem _ ht
          have hlt : t.eid < s.entries.length := hI.idxLt _ hmem
          rcases hI.taskEntry t ht with ⟨e, he, h1, h2, h3⟩
          refine ⟨e, ?_, h1, h2, h3⟩
          rw [List.getElem?_append_left hlt]
          exact he
      · intro d hd
        rcases List.mem_append.mp hd with hd | hd
        · have hold := hI.delLink d hd
          have hdk : d.key ∈ s.cache.map Prod.fst :=
            List.mem_map_of_mem Prod.fst (cacheLookup_mem hold)
          have hne : req.key ≠ d.key := fun hh => hnotmem (hh ▸ hdk)
          simp only [cacheLookup, if_neg hne]
          exact hold
        · simp only [List.mem_singleton] at hd
          subst hd
          simp [cacheLookup]
      · intro k
        rw [hI.fKeysIff k]
        constructor
        · rintro ⟨t, ht, hk, hph⟩
          exact ⟨t, List.mem_cons_of_mem _ ht, hk, hph⟩
        · rintro ⟨t, ht, hk, hph⟩
          rcases List.mem_cons.mp ht with ht | ht
          · subst ht
            cases hph rfl
          · exact ⟨t, ht, hk, hph⟩
      · simp only [List.reverse_append, List.reverse_cons, List.reverse_nil,
          List.nil_append, List.singleton_append, List.map_cons]
        rw [hI.spawnedEq]

theorem inv_callWrite {V : Type} {f : Func V} {s s' : State V} {n : Nat}
    (hI : Inv f s) (hs : step f s (.callWrite n) = some s') : Inv f s' := by
  simp only [step] at hs
  split at hs
  · cases hs
  · rename_i t hn
    split at hs
    · rename_i hph
      split at hs
      · cases hs
      · rename_i e he
        cases hs
        have ht : t ∈ s.calls := List.getElem?_mem hn
        have hlt : t.eid < s.entries.length := by
          rw [List.getElem?_eq_some] at he
          exact he.1
        rcases hI.taskEntry t ht with ⟨e0, he0, hstart, _, _⟩
        rw [he] at he0
        injection he0 with hee
        subst hee
        rcases hstart hph with ⟨hres, hready⟩
        have hprojn : (s.calls.map fun t => (t.key, t.eid))[n]? =
            some (t.key, t.eid) := by
          rw [List.getElem?_map, hn]
          rfl
        refine ⟨hI.keysNodup, ?_, ?_, ?_, hI.delLink, hI.sentOk, ?_, ?_,
          hI.spawnedEq⟩
        · rw [List.length_set]
          exact hI.idxEq
        · rw [List.map_set]
          have := set_eq_self_of_getElem? hprojn
          simp only [this]
          exact hI.callsProj
        · intro t'' ht''
          rcases mem_set_mapinj CallTask.eid hn hI.eidsNodup ht''
            with ht'' | ⟨ht'', hne⟩
          · subst ht''
            refine ⟨{ e with res := some (f t.key) },
              List.getElem?_set_self hlt, ?_, ?_, ?_⟩
            · intro h
              cases h
            · intro _
              exact ⟨rfl, hready⟩
            · intro h
              cases h
          · rcases hI.taskEntry t'' ht'' with ⟨e'', he'', h1, h2, h3⟩
            refine ⟨e'', ?_, h1, h2, h3⟩
            rw [List.getElem?_set_ne (fun hh => hne hh.symm)]
            exact he''
        · have hnew : t.key ∉ s.fKeys := by
            intro hk
            rcases (hI.fKeysIff t.key).mp hk with ⟨t2, ht2, hk2, hph2⟩
            have hl2 := hI.taskLink t2 ht2
            have hl1 := hI.taskLink t ht
            rw [hk2] at hl2
            rw [hl1] at hl2
            have heid : t2.eid = t.eid := by
              exact (Option.some.injEq .. ▸ hl2.symm)
            have : t2 = t :=
              List.inj_on_of_nodup_map hI.eidsNodup ht2 ht heid
            subst this
            rw [hph] at hph2
            exact hph2 rfl
          exact nodup_append_singleton hI.fKeysNodup hnew
        · intro k
          constructor
          · intro hk
            rcases List.mem_append.mp hk with hk | hk
            · rcases (hI.fKeysIff k).mp hk with ⟨t2, ht2, hk2, hph2⟩
              have hne : t2 ≠ t := by
                intro hh
                rw [hh, hph] at hph2
                exact hph2 rfl
              exact ⟨t2, mem_set_of_mem_of_ne ht2 hn hne, hk2, hph2⟩
            · simp only [List.mem_singleton] at hk
              subst hk
              refine ⟨{ t with phase := .wroteRes }, self_mem_set hn, rfl, ?_⟩
              intro h
              cases h
          · rintro ⟨t2, ht2, hk2, hph2⟩
            rcases mem_set_mapinj CallTask.eid hn hI.eidsNodup ht2
              with ht2 | ⟨ht2, _⟩
            · subst ht2
              apply List.mem_append.mpr
              right
              simp only [List.mem_singleton]
              exact hk2.symm
            · apply List.mem_append.mpr
              left
              exact (hI.fKeysIff k).mpr ⟨t2, ht2, hk2, hph2⟩
    · cases hs

theorem inv_callClose {V : Type} {f : Func V} {s s' : State V} {n : Nat}
    (hI : Inv f s) (hs : step f s (.callClose n) = some s') : Inv f s' := by
  simp only [step] at hs
  split at hs
  · cases hs
  · rename_i t hn
    split at hs
    · rename_i hph
      split at hs
      · cases hs
      · rename_i e he
        cases hs
        have ht : t ∈ s.calls := List.getElem?_mem hn
        have hlt : t.eid < s.entries.length := by
          rw [List.getElem?_eq_some] at he
          exact he.1
        rcases hI.taskEntry t ht with ⟨e0, he0, _, hwrote, _⟩
        rw [he] at he0
        injection he0 with hee
        subst hee
        rcases hwrote hph with ⟨hres, hready⟩
        have hprojn : (s.calls.map fun t => (t.key, t.eid))[n]? =
            some (t.key, t.eid) := by
          rw [List.getElem?_map, hn]
          rfl
        refine ⟨hI.keysNodup, ?_, ?_, ?_, hI.delLink, hI.sentOk,
          hI.fKeysNodup, ?_, hI.spawnedEq⟩
        · rw [List.length_set]
          exact hI.idxEq
        · rw [List.map_set]
          have := set_eq_self_of_getElem? hprojn
          simp only [this]
          exact hI.callsProj
        · intro t'' ht''
          rcases mem_set_mapinj CallTask.eid hn hI.eidsNodup ht''
            with ht'' | ⟨ht'', hne⟩
          · subst ht''
            refine ⟨{ e with ready := true },
              List.getElem?_set_self hlt, ?_, ?_, ?_⟩
            · intro h
              cases h
            · intro h
              cases h
            · intro _
              exact ⟨hres, rfl⟩
          · rcases hI.taskEntry t'' ht'' with ⟨e'', he'', h1, h2, h3⟩
            refine ⟨e'', ?_, h1, h2, h3⟩
            rw [List.getElem?_set_ne (fun hh => hne hh.symm)]
            exact he''
        · intro k
          constructor
          · intro hk
            rcases (hI.fKeysIff k).mp hk with ⟨t2, ht2, hk2, hph2⟩
            by_cases hne : t2 = t
            · subst hne
              refine ⟨{ t2 with phase := .done }, self_mem_set hn, hk2, ?_⟩
              intro h
              cases h
            · exact ⟨t2, mem_set_of_mem_of_ne ht2 hn hne, hk2, hph2⟩
          · rintro ⟨t2, ht2, hk2, hph2⟩
            rcases mem_set_mapinj CallTask.eid hn hI.eidsNodup ht2
              with ht2 | ⟨ht2, _⟩
            · subst ht2
              apply (hI.fKeysIff k).mpr
              refine ⟨t, ht, hk2, ?_⟩
              rw [hph]
              intro h
              cases h
            · exact (hI.fKeysIff k).mpr ⟨t2, ht2, hk2, hph2⟩
    · cases hs

theorem inv_deliver {V : Type} {f : Func V} {s s' : State V} {n : Nat}
    (hI : Inv f s) (hs : step f s (.deliver n) = some s') : Inv f s' := by
  simp only [step] at hs
  split at hs
  · cases hs
  · rename_i d hn
    split at hs
    · cases hs
    · rename_i hflag
      split at hs
      · cases hs
      · rename_i e he
        split at hs
        · rename_i hready
          split at hs
          · rename_i r hres
            cases hs
            have hd : d ∈ s.delivers := List.getElem?_mem hn
            have hdl := hI.delLink d hd
            refine ⟨hI.keysNodup, hI.idxEq, hI.callsProj, hI.taskEntry,
              ?_, ?_, hI.fKeysNodup, hI.fKeysIff, hI.spawnedEq⟩
            · intro d'' hd''
              rcases List.mem_or_eq_of_mem_set hd'' with hd'' | hd''
              · exact hI.delLink d'' hd''
              · subst hd''
                exact hdl
            · intro x hx
              rcases List.mem_append.mp hx with hx | hx
              · exact hI.sentOk x hx
              · simp only [List.mem_singleton] at hx
                subst hx
                have hmem : (d.key, d.eid) ∈ s.cache := cacheLookup_mem hdl
                have : (d.key, d.eid) ∈
                    s.calls.map fun t => (t.key, t.eid) := by
                  rw [hI.callsProj]
                  exact hmem
                rcases List.mem_map.mp this with ⟨t, ht, hproj⟩
                have hkey : t.key = d.key := congrArg Prod.fst hproj
                have heid : t.eid = d.eid := congrArg Prod.snd hproj
                rcases hI.taskEntry t ht with ⟨e0, he0, h1, h2, h3⟩
                rw [heid, he] at he0
                injection he0 with hee
                subst hee
                cases htp : t.phase with
                | start =>
                  rcases h1 htp with ⟨_, hrd⟩
                  rw [hrd] at hready
                  cases hready
                | wroteRes =>
                  rcases h2 htp with ⟨_, hrd⟩
                  rw [hrd] at hready
                  cases hready
                | done =>
                  rcases h3 htp with ⟨hr, _⟩
                  rw [hres] at hr
                  injection hr with hrr
                  show r = f d.key
                  rw [hrr, hkey]
          · cases hs
        · cases hs

/-- The invariant is preserved by every step. -/
theorem inv_step {V : Type} {f : Func V} {s s' : State V} {l : Label}
    (hI : Inv f s) (hs : step f s l = some s') : Inv f s' := by
  cases l with
  | enqueue r => exact inv_enqueue hI hs
  | srv => exact inv_srv hI hs
  | doClose => exact inv_doClose hI hs
  | callWrite n => exact inv_callWrite hI hs
  | callClose n => exact inv_callClose hI hs
  | deliver n => exact inv_deliver hI hs

/-- The invariant is preserved by every run. -/
theorem inv_run {V : Type} {f : Func V} {s s' : State V} {ls : List Label}
    (hI : Inv f s) (hs : run f s ls = some s') : Inv f s' := by
  induction ls generalizing s with
  | nil =>
    simp only [run, Option.some.injEq] at hs
    exact hs ▸ hI
  | cons l t ih =>
    simp only [run] at hs
    split at hs
    · cases hs
    · rename_i s1 hs1
      exact ih (inv_step hI hs1) hs

/-- Every reachable state of a `Memo` system satisfies the invariant. -/
theorem inv_reaches {V : Type} {f : Func V} {s : State V}
    (h : Reaches f s) : Inv f s := by
  rcases h with ⟨ls, hls⟩
  exact inv_run (inv_init f) hls

/-! ### Step-level facts used by the write-once and append-only claims -/

/-- Once an entry's `res` has been written it survives every step
unchanged: no action overwrites a set result. -/
theorem res_persists {V : Type} {f : Func V} {s s' : State V} {l : Label}
    (hI : Inv f s) (hs : step f s l = some s') {i : Nat} {e : entry V}
    {r : result V} (he : s.entries[i]? = some e) (hr : e.res = some r) :
    ∃ e', s'.entries[i]? = some e' ∧ e'.res = some r := by
  cases l with
  | enqueue r2 =>
    simp only [step] at hs
    split at hs
    · cases hs
    · cases hs
      exact ⟨e, he, hr⟩
  | doClose =>
    simp only [step] at hs
    split at hs
    · cases hs
    · cases hs
      exact ⟨e, he, hr⟩
  | srv =>
    simp only [step] at hs
    split at hs
    · cases hs
    · rename_i req rest hq
      split at hs
      · cases hs
        exact ⟨e, he, hr⟩
      · cases hs
        have hlt : i < s.entries.length := (List.getElem?_eq_some.mp he).1
        refine ⟨e, ?_, hr⟩
        rw [List.getElem?_append_left hlt]
        exact he
  | callWrite n =>
    simp only [step] at hs
    split at hs
    · cases hs
    · rename_i t hn
      split at hs
      · rename_i hph
        split at hs
        · cases hs
        · rename_i e2 he2
          cases hs
          have ht : t ∈ s.calls := List.getElem?_mem hn
          rcases hI.taskEntry t ht with ⟨e0, he0, hstart, _, _⟩
          rw [he2] at he0
          injection he0 with hee
          subst hee
          rcases hstart hph with ⟨hres0, _⟩
          have hne : t.eid ≠ i := by
            intro hh
            rw [hh, he] at he2
            injection he2 with hee2
            rw [hee2, hres0] at hr
            cases hr
          refine ⟨e, ?_, hr⟩
          rw [List.getElem?_set_ne hne]
          exact he
      · cases hs
  | callClose n =>
    simp only [step] at hs
    split at hs
    · cases hs
    · rename_i t hn
      split at hs
      · rename_i hph
        split at hs
        · cases hs
        · rename_i e2 he2
          cases hs
          by_cases hi : t.eid = i
          · subst hi
            rw [he] at he2
            injection he2 with hee2
            subst hee2
            have hlt : t.eid < s.entries.length :=
              (List.getElem?_eq_some.mp he).1
            exact ⟨{ e with ready := true },
              List.getElem?_set_self hlt, hr⟩
          · refine ⟨e, ?_, hr⟩
            rw [List.getElem?_set_ne hi]
            exact he
      · cases hs
  | deliver n =>
    simp only [step] at hs
    split at hs
    · cases hs
    · split at hs
      · cases hs
      · split at hs
        · cases hs
        · split at hs
          · split at hs
            · cases hs
              exact ⟨e, he, hr⟩
            · cases hs
          · cases hs

/-- A `deliver` goroutine only makes a step when its entry's `ready`
channel has been closed, and then the entry's result is present: the read
of `res` on line 182 happens only after `<-e.ready` on line 180. -/
theorem deliver_requires_ready {V : Type} {f : Func V} {s s' : State V}
    {n : Nat} (hs : step f s (.deliver n) = some s') :
    ∃ d e, s.delivers[n]? = some d ∧ s.entries[d.eid]? = some e ∧
      e.ready = true ∧ e.res.isSome := by
  simp only [step] at hs
  split at hs
  · cases hs
  · rename_i d hn
    split at hs
    · cases hs
    · split at hs
      · cases hs
      · rename_i e he
        split at hs
        · rename_i hready
          split at hs
          · rename_i r hres
            cases hs
            refine ⟨d, e, hn, he, hready, ?_⟩
            rw [hres]
            rfl
          · cases hs
        · cases hs

/-- One step never removes or replaces a cache binding, and never shrinks
the entry store. -/
theorem step_cache_mono {V : Type} {f : Func V} {s s' : State V} {l : Label}
    (hs : step f s l = some s') :
    (∀ k i, cacheLookup s.cache k = some i →
      cacheLookup s'.cache k = some i) ∧
    s.entries.length ≤ s'.entries.length := by
  cases l with
  | enqueue r2 =>
    simp only [step] at hs
    split at hs
    · cases hs
    · cases hs
      exact ⟨fun k i h => h, le_refl _⟩
  | doClose =>
    simp only [step] at hs
    split at hs
    · cases hs
    · cases hs
      exact ⟨fun k i h => h, le_refl _⟩
  | srv =>
    simp only [step] at hs
    split at hs
    · cases hs
    · rename_i req rest hq
      split at hs
      · cases hs
        exact ⟨fun k i h => h, le_refl _⟩
      · rename_i hl
        cases hs
        constructor
        · intro k i h
          have hne : req.key ≠ k := by
            intro hh
            rw [hh] at hl
            rw [hl] at h
            cases h
          simp only [cacheLookup, if_neg hne]
          exact h
        · simp only [List.length_append, List.length_cons, List.length_nil]
          exact Nat.le_add_right _ _
  | callWrite n =>
    simp only [step] at hs
    split at hs
    · cases hs
    · split at hs
      · split at hs
        · cases hs
        · cases hs
          exact ⟨fun k i h => h, le_of_eq (List.length_set ..).symm⟩
      · cases hs
  | callClose n =>
    simp only [step] at hs
    split at hs
    · cases hs
    · split at hs
      · split at hs
        · cases hs
        · cases hs
          exact ⟨fun k i h => h, le_of_eq (List.length_set ..).symm⟩
      · cases hs
  | deliver n =>
    simp only [step] at hs
    split at hs
    · cases hs
    · split at hs
      · cases hs
      · split at hs
        · cases hs
        · split at hs
          · split at hs
            · cases hs
              exact ⟨fun k i h => h, le_refl _⟩
            · cases hs
          · cases hs

/-- The server step is enabled whenever a request is queued, whatever the
state of the entries and of the other goroutines. -/
theorem srv_enabled {V : Type} (f : Func V) (s : State V)
    (hne : s.queue ≠ []) : ∃ s', step f s .srv = some s' := by
  rcases hq : s.queue with _ | ⟨req, rest⟩
  · exact absurd hq hne
  · rcases hl : cacheLookup s.cache req.key with _ | i
    · exact ⟨{ s with
        queue := rest,
        cache := (req.key, s.entries.length) :: s.cache,
        entries := s.entries ++ [⟨none, false⟩],
        calls := ⟨s.entries.length, req.key, CallPhase.start⟩ :: s.calls,
        spawned := s.spawned ++ [req.key],
        delivers := s.delivers ++
          [⟨req.key, s.entries.length, req.response, false⟩] },
        by simp only [step, hq, hl]⟩
    · exact ⟨{ s with
        queue := rest,
        delivers := s.delivers ++ [⟨req.key, i, req.response, false⟩] },
        by simp only [step, hq, hl]⟩

/-! ## The claims -/

/-- C1: for every key `k`, the computation function `f` passed to `New` is
invoked at most once for `k` over the lifetime of a `Memo` instance: in
every reachable state, the keys for which the server has spawned a `call`
goroutine are pairwise distinct (the entry is created and the goroutine
spawned only on the first request for a key, lines 140-144), the keys on
which `f` has actually been evaluated are pairwise distinct, and `f` is
only ever evaluated for keys whose `call` goroutine was spawned. -/
theorem c1_compute_at_most_once_per_key {V : Type} {f : Func V}
    {s : State V} (h : Reaches f s) :
    s.spawned.Nodup ∧ s.fKeys.Nodup ∧ ∀ k ∈ s.fKeys, k ∈ s.spawned := by
  have hI := inv_reaches h
  refine ⟨?_, hI.fKeysNodup, ?_⟩
  · rw [← List.nodup_reverse, hI.spawnedEq]
    exact hI.keysNodup
  · intro k hk
    rcases (hI.fKeysIff k).mp hk with ⟨t, ht, hkey, _⟩
    have hmem : (t.key, t.eid) ∈ s.cache := by
      rw [← hI.callsProj]
      exact List.mem_map_of_mem _ ht
    have : k ∈ s.cache.map Prod.fst := by
      rw [← hkey]
      exact List.mem_map_of_mem Prod.fst hmem
    rw [← hI.spawnedEq, List.mem_reverse] at this
    exact this

theorem c1_compute_at_most_once_per_key_witness :
    sTwoGets.spawned.Nodup ∧ sTwoGets.fKeys.Nodup ∧
      ∀ k ∈ sTwoGets.fKeys, k ∈ sTwoGets.spawned :=
  c1_compute_at_most_once_per_key ⟨lsTwoGets, rfl⟩

/-- C2: every response delivered for a request with key `k` — to the first
requester, a late arrival, or a later sequential caller — is exactly the
pair `f k` produced by the single invocation of `f`, and `f` is invoked at
most once per key, so subsequent `Get k` calls are answered from the cache
without re-invoking `f`. -/
theorem c2_every_caller_gets_same_result {V : Type} {f : Func V}
    {s : State V} (h : Reaches f s) :
    (∀ k c r, (k, c, r) ∈ s.sent → r = f k) ∧
    ∀ k, s.fKeys.count k ≤ 1 := by
  have hI := inv_reaches h
  constructor
  · intro k c r hmem
    exact hI.sentOk (k, c, r) hmem
  · intro k
    exact List.nodup_iff_count_le_one.mp hI.fKeysNodup k

theorem c2_every_caller_gets_same_result_witness :
    (∀ k c r, (k, c, r) ∈ sTwoGets.sent → r = fWit k) ∧
    ∀ k, sTwoGets.fKeys.count k ≤ 1 :=
  c2_every_caller_gets_same_result ⟨lsTwoGets, rfl⟩

/-- C3: if `f k` carries a non-nil error, that error is the permanent
cached result for `k`: every response delivered for `k` (current or
future) carries that very error, through the same `sent` path as a
successful value, and `f` is invoked at most once for `k` (never
retried). -/
theorem c3_errors_cached_never_retried {V : Type} {f : Func V}
    {s : State V} {k : String} {v : V} {msg : String} (h : Reaches f s)
    (hf : f k = ⟨v, some msg⟩) :
    (∀ c r, (k, c, r) ∈ s.sent → r.err = some msg) ∧
    s.fKeys.count k ≤ 1 := by
  have hI := inv_reaches h
  constructor
  · intro c r hmem
    have hres : r = f k := hI.sentOk (k, c, r) hmem
    rw [hres, hf]
  · exact List.nodup_iff_count_le_one.mp hI.fKeysNodup k

theorem c3_errors_cached_never_retried_witness :
    (∀ c r, ("a", c, r) ∈ sTwoGetsErr.sent → r.err = some "boom") ∧
    sTwoGetsErr.fKeys.count "a" ≤ 1 :=
  c3_errors_cached_never_retried (f := fErr) (v := 0) ⟨lsTwoGets, rfl⟩ rfl

/-- C7: once a cache entry exists for a key it is never replaced or
removed for the lifetime of the `Memo`: along any further execution, the
key still maps to the very same entry index, and the entry store only
grows (append-only; there is no eviction in `server`, lines 136-148). -/
theorem c7_cache_append_only {V : Type} {f : Func V} {s s' : State V}
    {ls : List Label} (hrun : run f s ls = some s') :
    (∀ k i, cacheLookup s.cache k = some i →
      cacheLookup s'.cache k = some i) ∧
    s.entries.length ≤ s'.entries.length := by
  induction ls generalizing s with
  | nil =>
    simp only [run, Option.some.injEq] at hrun
    subst hrun
    exact ⟨fun k i h => h, le_refl _⟩
  | cons l t ih =>
    simp only [run] at hrun
    split at hrun
    · cases hrun
    · rename_i s1 hs1
      rcases step_cache_mono hs1 with ⟨hmono, hlen⟩
      rcases ih hrun with ⟨hmono', hlen'⟩
      exact ⟨fun k i h => hmono' k i (hmono k i h), le_trans hlen hlen'⟩

theorem c7_cache_append_only_witness :
    (∀ k i, cacheLookup sMidFlight.cache k = some i →
      cacheLookup sDoneFlight.cache k = some i) ∧
    sMidFlight.entries.length ≤ sDoneFlight.entries.length :=
  @c7_cache_append_only Nat fWit sMidFlight sDoneFlight
    [.callWrite 0, .callClose 0, .deliver 0] (by rfl)

/-- C6: for every cache entry, in every reachable state: (1) whenever the
entry's `ready` channel has been closed, its result is set — and set to
`f k` for the entry's key `k` — so the write of `res` (line 169) completes
before `close(e.ready)` (line 171) fires; (2) there is exactly one `call`
goroutine per entry (their entry indices are pairwise distinct), so the
result is written by exactly one compute task; (3) a set result is never
overwritten by any step (write-once); and (4) a `deliver` goroutine steps
only when `ready` is observed closed, so every read of `res` (line 182)
happens after the `ready` signal (line 180). -/
theorem c6_res_write_once_before_ready {V : Type} {f : Func V}
    {s : State V} (h : Reaches f s) :
    (∀ (k : String) (i : Nat) (e : entry V), (k, i) ∈ s.cache →
      s.entries[i]? = some e → e.ready = true → e.res = some (f k)) ∧
    (s.calls.map CallTask.eid).Nodup ∧
    (∀ (l : Label) (s' : State V) (i : Nat) (e : entry V) (r : result V),
      step f s l = some s' → s.entries[i]? = some e →
      e.res = some r → ∃ e', s'.entries[i]? = some e' ∧ e'.res = some r) ∧
    (∀ (n : Nat) (s' : State V), step f s (.deliver n) = some s' →
      ∃ d e, s.delivers[n]? = some d ∧ s.entries[d.eid]? = some e ∧
        e.ready = true ∧ e.res.isSome) := by
  have hI := inv_reaches h
  refine ⟨?_, hI.eidsNodup, ?_, ?_⟩
  · intro k i e hmem he hready
    have hmem' : (k, i) ∈ s.calls.map fun t => (t.key, t.eid) := by
      rw [hI.callsProj]
      exact hmem
    rcases List.mem_map.mp hmem' with ⟨t, ht, hproj⟩
    have hkey : t.key = k := congrArg Prod.fst hproj
    have heid : t.eid = i := congrArg Prod.snd hproj
    rcases hI.taskEntry t ht with ⟨e0, he0, h1, h2, h3⟩
    rw [heid, he] at he0
    injection he0 with hee
    subst hee
    cases htp : t.phase with
    | start =>
      rcases h1 htp with ⟨_, hrd⟩
      rw [hrd] at hready
      cases hready
    | wroteRes =>
      rcases h2 htp with ⟨_, hrd⟩
      rw [hrd] at hready
      cases hready
    | done =>
      rcases h3 htp with ⟨hr, _⟩
      rw [← hkey]
      exact hr
  · intro l s' i e r hs he hr
    exact res_persists hI hs he hr
  · intro n s' hs
    exact deliver_requires_ready hs

theorem c6_res_write_once_before_ready_witness :
    (∀ (k : String) (i : Nat) (e : entry Nat), (k, i) ∈ sTwoGets.cache →
      sTwoGets.entries[i]? = some e → e.ready = true →
      e.res = some (fWit k)) ∧
    (sTwoGets.calls.map CallTask.eid).Nodup ∧
    (∀ (l : Label) (s' : State Nat) (i : Nat) (e : entry Nat)
      (r : result Nat), step fWit sTwoGets l = some s' →
      sTwoGets.entries[i]? = some e → e.res = some r →
      ∃ e', s'.entries[i]? = some e' ∧ e'.res = some r) ∧
    (∀ (n : Nat) (s' : State Nat), step fWit sTwoGets (.deliver n) = some s' →
      ∃ d e, sTwoGets.delivers[n]? = some d ∧
        sTwoGets.entries[d.eid]? = some e ∧
        e.ready = true ∧ e.res.isSome) :=
  c6_res_write_once_before_ready ⟨lsTwoGets, rfl⟩

/-- C8: the coordinator step (the body of the `for req := range m.requests`
loop, lines 138-147).  Whenever a request is at the head of the channel the
server makes a step, whatever the state of the entries, `call` and
`deliver` goroutines — so it never waits for a computation or a delivery
and a slow computation for one key cannot stall it.  If the key is absent
it creates a new entry with `ready` not closed, inserts it, spawns exactly
one `call` goroutine for the key and one `deliver` goroutine; if the key is
present it only spawns a `deliver` goroutine. -/
theorem c8_coordinator_never_blocks {V : Type} (f : Func V) (s : State V)
    (req : request) (rest : List request) (hq : s.queue = req :: rest) :
    (∃ s', step f s .srv = some s') ∧
    (cacheLookup s.cache req.key = none →
      step f s .srv = some { s with
        queue := rest,
        cache := (req.key, s.entries.length) :: s.cache,
        entries := s.entries ++ [⟨none, false⟩],
        calls := ⟨s.entries.length, req.key, CallPhase.start⟩ :: s.calls,
        spawned := s.spawned ++ [req.key],
        delivers := s.delivers ++
          [⟨req.key, s.entries.length, req.response, false⟩] }) ∧
    (∀ i, cacheLookup s.cache req.key = some i →
      step f s .srv = some { s with
        queue := rest,
        delivers := s.delivers ++ [⟨req.key, i, req.response, false⟩] }) := by
  have hmiss : cacheLookup s.cache req.key = none →
      step f s .srv = some { s with
        queue := rest,
        cache := (req.key, s.entries.length) :: s.cache,
        entries := s.entries ++ [⟨none, false⟩],
        calls := ⟨s.entries.length, req.key, CallPhase.start⟩ :: s.calls,
        spawned := s.spawned ++ [req.key],
        delivers := s.delivers ++
          [⟨req.key, s.entries.length, req.response, false⟩] } := by
    intro hl
    simp only [step, hq, hl]
  have hhit : ∀ i, cacheLookup s.cache req.key = some i →
      step f s .srv = some { s with
        queue := rest,
        delivers := s.delivers ++ [⟨req.key, i, req.response, false⟩] } := by
    intro i hl
    simp only [step, hq, hl]
  refine ⟨?_, hmiss, hhit⟩
  rcases hl : cacheLookup s.cache req.key with _ | i
  · exact ⟨_, hmiss hl⟩
  · exact ⟨_, hhit i hl⟩

theorem c8_coordinator_never_blocks_witness :
    (∃ s', step fWit sQueued .srv = some s') ∧
    (cacheLookup sQueued.cache (request.mk "a" 0).key = none →
      step fWit sQueued .srv = some { sQueued with
        queue := [],
        cache := ((request.mk "a" 0).key, sQueued.entries.length) ::
          sQueued.cache,
        entries := sQueued.entries ++ [⟨none, false⟩],
        calls := ⟨sQueued.entries.length, (request.mk "a" 0).key,
          CallPhase.start⟩ :: sQueued.calls,
        spawned := sQueued.spawned ++ [(request.mk "a" 0).key],
        delivers := sQueued.delivers ++
          [⟨(request.mk "a" 0).key, sQueued.entries.length,
            (request.mk "a" 0).response, false⟩] }) ∧
    (∀ i, cacheLookup sQueued.cache (request.mk "a" 0).key = some i →
      step fWit sQueued .srv = some { sQueued with
        queue := [],
        delivers := sQueued.delivers ++
          [⟨(request.mk "a" 0).key, i, (request.mk "a" 0).response,
            false⟩] }) :=
  c8_coordinator_never_blocks fWit sQueued ⟨"a", 0⟩ [] rfl

/-- C10: after `Close`, once the closed requests channel has been drained,
the coordinator terminates: the `for req := range m.requests` loop body is
no longer enabled, no new request can ever be enqueued, and every step any
remaining goroutine still takes leaves the cache untouched, the queue
empty, the set of spawned `call` goroutines unchanged and the channel
closed — the coordinator performs no further lookups, insertions or task
launches. -/
theorem c10_coordinator_terminates_after_close {V : Type} (f : Func V)
    (s : State V) (hclosed : s.closed = true) (hq : s.queue = []) :
    step f s .srv = none ∧
    (∀ r, step f s (.enqueue r) = none) ∧
    (∀ l s', step f s l = some s' → s'.cache = s.cache ∧ s'.queue = [] ∧
      s'.calls.length = s.calls.length ∧ s'.spawned = s.spawned ∧
      s'.closed = true) := by
  refine ⟨by simp only [step, hq], ?_, ?_⟩
  · intro r
    simp only [step, hclosed]
    rfl
  · intro l s' hs
    cases l with
    | enqueue r =>
      simp only [step, hclosed] at hs
      cases hs
    | srv =>
      simp only [step, hq] at hs
      cases hs
    | doClose =>
      simp only [step, hclosed] at hs
      cases hs
    | callWrite n =>
      simp only [step] at hs
      split at hs
      · cases hs
      · split at hs
        · split at hs
          · cases hs
          · cases hs
            exact ⟨rfl, hq, (List.length_set ..), rfl, hclosed⟩
        · cases hs
    | callClose n =>
      simp only [step] at hs
      split at hs
      · cases hs
      · split at hs
        · split at hs
          · cases hs
          · cases hs
            exact ⟨rfl, hq, (List.length_set ..), rfl, hclosed⟩
        · cases hs
    | deliver n =>
      simp only [step] at hs
      split at hs
      · cases hs
      · split at hs
        · cases hs
        · split at hs
          · cases hs
          · split at hs
            · split at hs
              · cases hs
                exact ⟨rfl, hq, rfl, rfl, hclosed⟩
              · cases hs
            · cases hs

theorem c10_coordinator_terminates_after_close_witness :
    step fWit sClosedDrained .srv = none ∧
    (∀ r, step fWit sClosedDrained (.enqueue r) = none) ∧
    (∀ l s', step fWit sClosedDrained l = some s' →
      s'.cache = sClosedDrained.cache ∧ s'.queue = [] ∧
      s'.calls.length = sClosedDrained.calls.length ∧
      s'.spawned = sClosedDrained.spawned ∧ s'.closed = true) :=
  c10_coordinator_terminates_after_close fWit sClosedDrained rfl rfl

/-- C4, counterexample: the claim says `Get` after `Close` fails with a
`ClosedError` surfaced to the caller rather than hanging or crashing.  The
code has no `ClosedError` at all: `Get` (line 121) sends on `m.requests`,
which `Close` (line 128) has closed, and a send on a closed channel is a
Go run-time panic — the program crashes instead of returning an error
value.  Concretely, a `Get` of key `"k"` on a closed `Memo` panics. -/
theorem c4_counterexample_get_after_close_panics :
    memoGet true ⟨"k", 0⟩ [] = Except.error GoPanic.sendOnClosedChannel :=
  rfl

/-- C4 amended: calling `Get` after `Close` panics with Go's
send-on-closed-channel run-time panic (it does not hang, but it crashes
rather than returning a `ClosedError`), while `Get` calls whose requests
were already accepted before `Close` still complete: the server keeps
consuming the queued requests of the closed channel. -/
theorem c4_amended_get_after_close_panics {V : Type} (f : Func V)
    (s : State V) (r : request) (q : List request)
    (hclosed : s.closed = true) :
    memoGet s.closed r q = Except.error GoPanic.sendOnClosedChannel ∧
    (s.queue ≠ [] → ∃ s', step f s .srv = some s') := by
  constructor
  · rw [hclosed]
    rfl
  · exact srv_enabled f s

theorem c4_amended_get_after_close_panics_witness :
    memoGet sClosedPending.closed ⟨"b", 1⟩ [] =
      Except.error GoPanic.sendOnClosedChannel ∧
    (sClosedPending.queue ≠ [] →
      ∃ s', step fWit sClosedPending .srv = some s') :=
  c4_amended_get_after_close_panics fWit sClosedPending ⟨"b", 1⟩ [] rfl

/-- C5, counterexample: the claim says `Close` is idempotent — a second
`Close` has the same effect as the first, without any fault.  `Close`
(line 128) is `close(m.requests)`, and closing an already-closed channel
is a Go run-time panic: running `Close` twice in sequence panics with
close-of-closed-channel instead of succeeding. -/
theorem c5_counterexample_second_close_panics :
    memoCloseTwice = Except.error GoPanic.closeOfClosedChannel :=
  rfl

/-- C5 amended: `Close` is not idempotent.  A first `Close` succeeds and
closes the requests channel; any subsequent `Close` panics with Go's
close-of-closed-channel run-time panic.  A single `Close` does stop
acceptance of new keys (no request can be enqueued any more) while
letting queued in-flight work finish (the server still consumes requests
accepted before the close). -/
theorem c5_amended_close_not_idempotent {V : Type} (f : Func V)
    (s : State V) (hclosed : s.closed = true) :
    memoClose false = Except.ok true ∧
    memoClose s.closed = Except.error GoPanic.closeOfClosedChannel ∧
    (∀ r, step f s (.enqueue r) = none) ∧
    (s.queue ≠ [] → ∃ s', step f s .srv = some s') := by
  refine ⟨rfl, ?_, ?_, ?_⟩
  · rw [hclosed]
    rfl
  · intro r
    simp only [step, hclosed]
    rfl
  · exact srv_enabled f s

theorem c5_amended_close_not_idempotent_witness :
    memoClose false = Except.ok true ∧
    memoClose sClosedPending.closed =
      Except.error GoPanic.closeOfClosedChannel ∧
    (∀ r, step fWit sClosedPending (.enqueue r) = none) ∧
    (sClosedPending.queue ≠ [] →
      ∃ s', step fWit sClosedPending .srv = some s') :=
  c5_amended_close_not_idempotent fWit sClosedPending rfl

/-- C9, counterexample: the claim says the source keeps the cache in a
package-level map, so that two instances `m1 = New(f1)` and `m2 = New(f2)`
coordinate over one shared cache and a `Get` on each for the same key
observes the same cache entry.  In the code, `cache` is a local variable
of `server` (line 137), created afresh inside each instance's monitor
goroutine.  Were the entry for `"k"` shared, the instance whose `Get "k"`
ran second would observe the already-computed entry and receive the first
function's cached result (one entry holds one result).  Instead, a fresh
instance over `fTwo` delivers `⟨2, none⟩` for `"k"` while a fresh instance
over `fOne` delivers `⟨1, none⟩`: the two `Get`s do not observe one shared
entry. -/
theorem c9_counterexample_instances_do_not_share_cache :
    getOnce fTwo "k" ≠ getOnce fOne "k" := by
  decide

/-- C9 amended: the cache is per-instance, not global: `server` owns a
map local to the one `Memo` created by `New`, so the `Get` operations of
different `Memo` instances coordinate over disjoint caches, and a complete
`Get k` on a fresh instance of `New f` delivers exactly its own `f k` —
whatever any other instance has computed. -/
theorem c9_amended_cache_is_per_instance {V : Type} (f1 f2 : Func V)
    (k : String) :
    getOnce f1 k = some (f1 k) ∧ getOnce f2 k = some (f2 k) :=
  ⟨rfl, rfl⟩

end GoplMemo
